import Mathlib

/-!
Verification of the cvxpy reduction layer (matrix stuffing pipeline).

This file gives a shallow embedding, over exact rationals, of the code in
  cvxpy/reductions/dcp2cone/cone_matrix_stuffing.py  (ParamConeProg,
    ConeMatrixStuffing.apply),
  cvxpy/reductions/matrix_stuffing.py  (MatrixStuffing.apply / invert), and
  cvxpy/expressions/constants/parameter.py  (treat_params_as_affine),
and proves or refutes the specified properties of those functions.

Numeric arrays are embedded as functions `Nat -> Rat` carrying their
Fortran-order flattened entries (every reshape/flatten in the source uses
order='F', under which a reshape followed by a flatten is the identity on
the underlying flat data), together with an explicit `shape` when the
source keeps one.  Python dicts that the source iterates over are embedded
as insertion-ordered association lists.
-/

namespace Cvxpy

/-- An n-dimensional numeric array: its shape together with its
Fortran-order flattened entries (`data k` is entry `k` of `flatten(order='F')`;
only indices below the product of `shape` are meaningful). -/
structure NDArr where
  shape : List Nat
  data : Nat → ℚ

/-! ### ParamConeProg.split_solution / split_adjoint
Embedding of cone_matrix_stuffing.py lines 124-149.  A `ParamConeProg`'s
solution-splitting data: the stacked variable size `x.size`, the ordered
dict `var_id_to_col`, the list of variable ids (`self.variables`), and the
per-id size/shape lookups (`self.id_to_var`). -/

structure SplitProg where
  xSize : Nat
  varIdToCol : List (Nat × Nat)
  varIds : List Nat
  idToSize : Nat → Nat
  idToShape : Nat → List Nat

/-- First-match association-list lookup with default, embedding a Python
dict lookup `d[k]` on a dict represented as an insertion-ordered list. -/
def lookupD (l : List (Nat × Nat)) (k : Nat) (dflt : Nat) : Nat :=
  match l with
  | [] => dflt
  | (k', v) :: rest => if k' = k then v else lookupD rest k dflt

/-- ParamConeProg.split_solution: slices the flat vector `sltn` at each
variable's column offset and reshapes to the variable's shape in Fortran
order, restricted to `active_vars` (default: all variable ids). -/
def split_solution (prog : SplitProg) (sltn : Nat → ℚ)
    (active_vars : Option (List Nat) := none) : List (Nat × NDArr) :=
  let act := active_vars.getD prog.varIds
  (prog.varIdToCol.filter (fun e => e.1 ∈ act)).map
    (fun e => (e.1, ⟨prog.idToShape e.1, fun k => sltn (e.2 + k)⟩))

/-- ParamConeProg.split_adjoint: scatters each variable's Fortran-flattened
array back into its column range of a zero-initialized vector of length
`x.size` (writes happen in dict order; later writes overwrite earlier). -/
def split_adjoint (prog : SplitProg) (del_vars : List (Nat × NDArr)) : Nat → ℚ :=
  del_vars.foldl
    (fun acc e =>
      let col := lookupD prog.varIdToCol e.1 0
      let size := prog.idToSize e.1
      fun i => if col ≤ i ∧ i < col + size then e.2.data (i - col) else acc i)
    (fun _ => 0)

/-- An entry of a scatter list writes at index `i` iff `i` lies in the
column range that `split_adjoint` computes for its variable id. -/
def coversIdx (prog : SplitProg) (e : Nat × NDArr) (i : Nat) : Prop :=
  lookupD prog.varIdToCol e.1 0 ≤ i ∧
    i < lookupD prog.varIdToCol e.1 0 + prog.idToSize e.1

instance (prog : SplitProg) (e : Nat × NDArr) (i : Nat) :
    Decidable (coversIdx prog e i) := by
  unfold coversIdx; infer_instance

lemma split_adjoint_untouched (prog : SplitProg) (l : List (Nat × NDArr))
    (acc : Nat → ℚ) (i : Nat) (h : ∀ e ∈ l, ¬ coversIdx prog e i) :
    l.foldl
      (fun acc e =>
        let col := lookupD prog.varIdToCol e.1 0
        let size := prog.idToSize e.1
        fun j => if col ≤ j ∧ j < col + size then e.2.data (j - col) else acc j)
      acc i = acc i := by
  induction l generalizing acc with
  | nil => rfl
  | cons e rest ih =>
    simp only [List.foldl_cons]
    rw [ih _ (fun e' he' => h e' (List.mem_cons_of_mem _ he'))]
    have hne := h e (List.mem_cons_self _ _)
    simp only [coversIdx] at hne
    simp only [if_neg hne]

lemma split_adjoint_covered (prog : SplitProg) (v : Nat → ℚ)
    (l : List (Nat × NDArr)) (acc : Nat → ℚ) (i : Nat)
    (hex : ∃ e ∈ l, coversIdx prog e i)
    (hgood : ∀ e ∈ l, coversIdx prog e i →
      e.2.data (i - lookupD prog.varIdToCol e.1 0) = v i) :
    l.foldl
      (fun acc e =>
        let col := lookupD prog.varIdToCol e.1 0
        let size := prog.idToSize e.1
        fun j => if col ≤ j ∧ j < col + size then e.2.data (j - col) else acc j)
      acc i = v i := by
  induction l generalizing acc with
  | nil => exact absurd hex (by simp)
  | cons e rest ih =>
    simp only [List.foldl_cons]
    by_cases hrest : ∃ e' ∈ rest, coversIdx prog e' i
    · exact ih _ hrest (fun e' he' => hgood e' (List.mem_cons_of_mem _ he'))
    · push_neg at hrest
      rw [split_adjoint_untouched prog rest _ i hrest]
      have hcov : coversIdx prog e i := by
        rcases hex with ⟨e', he', hc⟩
        rcases List.mem_cons.mp he' with rfl | hmem
        · exact hc
        · exact absurd hc (hrest e' hmem)
      have := hgood e (List.mem_cons_self _ _) hcov
      simp only [coversIdx] at hcov
      simp only [if_pos hcov]
      exact this

lemma lookupD_of_nodup (l : List (Nat × Nat)) (k v dflt : Nat)
    (hmem : (k, v) ∈ l) (hnd : (l.map Prod.fst).Nodup) :
    lookupD l k dflt = v := by
  induction l with
  | nil => simp at hmem
  | cons e rest ih =>
    simp only [List.map_cons, List.nodup_cons] at hnd
    rcases List.mem_cons.mp hmem with rfl | hmem'
    · simp [lookupD]
    · have hne : e.1 ≠ k := by
        intro h
        exact hnd.1 (h ▸ (List.mem_map.mpr ⟨(k, v), hmem', rfl⟩))
      simp only [lookupD, if_neg hne]
      exact ih hmem' hnd.2

/-- C1: for a ParamConeProg whose var_id_to_col ranges cover [0, x.size)
without gaps or overlaps, split_adjoint is the exact inverse of
split_solution with the default (all-variables) active set: the round trip
returns the input vector exactly at every index of [0, x.size). -/
theorem split_adjoint_inverse_of_split_solution (prog : SplitProg)
    (v : Nat → ℚ) (i : Nat)
    (hkeys : (prog.varIdToCol.map Prod.fst).Nodup)
    (hsub : ∀ e ∈ prog.varIdToCol, e.1 ∈ prog.varIds)
    (hshape : ∀ e ∈ prog.varIdToCol,
      (prog.idToShape e.1).prod = prog.idToSize e.1)
    (hcover : ∀ j, j < prog.xSize →
      ∃ e ∈ prog.varIdToCol, e.2 ≤ j ∧ j < e.2 + prog.idToSize e.1)
    (hdisj : prog.varIdToCol.Pairwise (fun e1 e2 =>
      e1.2 + prog.idToSize e1.1 ≤ e2.2 ∨ e2.2 + prog.idToSize e2.1 ≤ e1.2))
    (hi : i < prog.xSize) :
    split_adjoint prog (split_solution prog v) i = v i := by
  unfold split_adjoint split_solution
  simp only [Option.getD_none]
  have hfilter : prog.varIdToCol.filter (fun e => decide (e.1 ∈ prog.varIds)) =
      prog.varIdToCol := by
    apply List.filter_eq_self.mpr
    intro e he
    exact decide_eq_true (hsub e he)
  rw [hfilter]
  apply split_adjoint_covered prog v _ _ i
  · rcases hcover i hi with ⟨e, he, h1, h2⟩
    refine ⟨(e.1, ⟨prog.idToShape e.1, fun k => v (e.2 + k)⟩),
      List.mem_map.mpr ⟨e, he, rfl⟩, ?_⟩
    have hcol : lookupD prog.varIdToCol e.1 0 = e.2 :=
      lookupD_of_nodup _ _ _ _ (by exact he) hkeys
    simpa [coversIdx, hcol] using ⟨h1, h2⟩
  · rintro e' he' hc
    rcases List.mem_map.mp he' with ⟨e, he, rfl⟩
    have hcol : lookupD prog.varIdToCol e.1 0 = e.2 :=
      lookupD_of_nodup _ _ _ _ (by exact he) hkeys
    simp only [coversIdx, hcol] at hc
    simp only [hcol]
    congr 1
    omega

/-- Witness for C1 at a concrete two-variable program. -/
theorem split_adjoint_inverse_witness :
    split_adjoint
      ⟨3, [(7, 0), (8, 1)], [7, 8],
        (fun id => if id = 7 then 1 else 2),
        (fun id => if id = 7 then [1] else [2])⟩
      (split_solution
        ⟨3, [(7, 0), (8, 1)], [7, 8],
          (fun id => if id = 7 then 1 else 2),
          (fun id => if id = 7 then [1] else [2])⟩
        (fun i => (i : ℚ) + 5)) 2 = (2 : ℚ) + 5 := by
  apply split_adjoint_inverse_of_split_solution
  · decide
  · decide
  · decide
  · intro j hj
    interval_cases j
    · exact ⟨(7, 0), by simp, by norm_num⟩
    · exact ⟨(8, 1), by simp, by norm_num⟩
    · exact ⟨(8, 1), by simp, by norm_num⟩
  · simp
  · norm_num

/-! ### Solver statuses
Modelled from the spec: `cvxpy.settings` is not under src/; the spec
(sections 6 and 7) describes a closed set of solver outcome codes —
optimal, infeasible, unbounded, error, with inaccurate variants — a
"solution present" subset containing the optimal outcomes, and an error
subset containing the solver-error outcome. -/

inductive Status where
  | optimal
  | optimal_inaccurate
  | infeasible
  | infeasible_inaccurate
  | unbounded
  | unbounded_inaccurate
  | solver_error
deriving DecidableEq

/-- Modelled from the spec: the "solution present" status set
(s.SOLUTION_PRESENT in cvxpy.settings, not under src/). -/
def SOLUTION_PRESENT : List Status := [.optimal, .optimal_inaccurate]

/-- Modelled from the spec: the error status set (s.ERROR in
cvxpy.settings, not under src/). -/
def ERROR : List Status := [.solver_error]

/-! ### Constraints and dual variables
A constraint as the reductions see it: its (already canonical or
pre-lowering) kind, its constr_id, the SOC `axis == 1` flag, the sizes of
its argument expressions, and its dual variables (one per argument, each
carrying an id and a shape; created freshly, with ids drawn from the
process-wide counter, when a constraint object is constructed). -/

inductive CKind where
  | zero
  | nonpos
  | soc
  | psd
  | expcone
  | equality
  | inequality
deriving DecidableEq

structure DualVar where
  id : Nat
  shape : List Nat
deriving DecidableEq

def DualVar.size (d : DualVar) : Nat := d.shape.prod

structure ConstraintL where
  kind : CKind
  cid : Nat
  axis : Bool
  argSizes : List Nat
  dualVars : List DualVar
deriving DecidableEq

/-! ### MatrixStuffing.invert (matrix_stuffing.py lines 100-140) -/

/-- A solver `Solution` as consumed by invert: status, optimal value, the
primal and dual value dicts (insertion-ordered; values are flat vectors),
and opaque solver metadata.  `dual_vars` is `none` when the solve supplied
no duals. -/
structure SolutionL where
  status : Status
  opt_val : ℚ
  primal_vars : List (Nat × (Nat → ℚ))
  dual_vars : Option (List (Nat × (Nat → ℚ)))
  attr : Nat

/-- A `Solution` as produced by invert: per-variable values reshaped to
their original shapes. -/
structure SolutionOut where
  status : Status
  opt_val : ℚ
  primal_vars : List (Nat × NDArr)
  dual_vars : List (Nat × NDArr)
  attr : Nat

/-- The `InverseData` fields consumed by MatrixStuffing.invert. -/
structure InvDataL where
  var_offsets : List (Nat × Nat)
  var_shapes : Nat → List Nat
  minimize : Bool
  constraints : List ConstraintL
  dv_id_map : Nat → Nat

/-- The sequential dual-vector slicing of invert's dual loop: walks the
dual variables of one constraint, slicing the giant dual vector at the
running offset and reshaping each slice (Fortran order) under the
original dual variable's identity via dv_id_map. -/
def dvSlices (dvmap : Nat → Nat) (dual_var : Nat → ℚ) :
    List DualVar → Nat → List (Nat × NDArr)
  | [], _ => []
  | d :: ds, off =>
    (dvmap d.id, ⟨d.shape, fun k => dual_var (off + k)⟩) ::
      dvSlices dvmap dual_var ds (off + d.size)

/-- The constraint walk of invert's dual loop (offset accumulates across
constraints in stored order). -/
def dualWalk (dvmap : Nat → Nat) (dual_var : Nat → ℚ) :
    List ConstraintL → Nat → List (Nat × NDArr)
  | [], _ => []
  | c :: cs, off =>
    dvSlices dvmap dual_var c.dualVars off ++
      dualWalk dvmap dual_var cs (off + (c.dualVars.map DualVar.size).sum)

/-- MatrixStuffing.invert (matrix_stuffing.py lines 100-140): flips the
sign of opt_val if the problem was a maximize and the status is not an
error status; short-circuits with empty primal/dual maps when the status
carries no solution; otherwise splits the first primal vector by the
recorded offsets/shapes and, when duals are present, splits the first
dual vector by walking the stored constraints. -/
def invert (solution : SolutionL) (inverse_data : InvDataL) : SolutionOut :=
  let opt_val :=
    if solution.status ∉ ERROR ∧ ¬ inverse_data.minimize then
      -solution.opt_val
    else solution.opt_val
  if solution.status ∉ SOLUTION_PRESENT then
    ⟨solution.status, opt_val, [], [], solution.attr⟩
  else
    let x_opt := ((solution.primal_vars.head?).map Prod.snd).getD (fun _ => 0)
    let primal := inverse_data.var_offsets.map (fun e =>
      (e.1, NDArr.mk (inverse_data.var_shapes e.1) (fun k => x_opt (e.2 + k))))
    let dual :=
      match solution.dual_vars with
      | none => []
      | some dlist =>
        let dual_var := ((dlist.head?).map Prod.snd).getD (fun _ => 0)
        dualWalk inverse_data.dv_id_map dual_var inverse_data.constraints 0
    ⟨solution.status, opt_val, primal, dual, solution.attr⟩

/-- C4: for a status carrying no solution, invert returns a Solution with
that status and empty primal/dual maps, and its output does not depend on
the primal_vars and dual_vars contained in the input solution. -/
theorem invert_no_solution_short_circuit (sol : SolutionL) (inv : InvDataL)
    (p p' : List (Nat × (Nat → ℚ))) (d d' : Option (List (Nat × (Nat → ℚ))))
    (h : sol.status ∉ SOLUTION_PRESENT) :
    (invert { sol with primal_vars := p, dual_vars := d } inv).status
        = sol.status ∧
    (invert { sol with primal_vars := p, dual_vars := d } inv).primal_vars
        = [] ∧
    (invert { sol with primal_vars := p, dual_vars := d } inv).dual_vars
        = [] ∧
    invert { sol with primal_vars := p, dual_vars := d } inv
        = invert { sol with primal_vars := p', dual_vars := d' } inv := by
  unfold invert
  simp only [if_pos h]
  exact ⟨trivial, trivial, trivial, trivial⟩

/-- Witness for C4: an infeasible status short-circuits regardless of the
primal/dual maps passed in. -/
theorem invert_no_solution_short_circuit_witness :
    (invert ⟨.infeasible, 3, [(0, fun _ => 1)], none, 0⟩
        ⟨[], fun _ => [], true, [], id⟩).primal_vars = [] := by
  exact (invert_no_solution_short_circuit
    ⟨Status.infeasible, 3, [], none, 0⟩ ⟨[], fun _ => [], true, [], id⟩
    [(0, fun _ => 1)] [] none none (by decide)).2.1

/-- C5: invert negates opt_val exactly when the original objective was a
maximize and the status is not an error status; for an error status, and
for a minimize objective, opt_val passes through unchanged. -/
theorem invert_opt_val_sign (sol : SolutionL) (inv : InvDataL) :
    (sol.status ∉ ERROR ∧ ¬ inv.minimize →
      (invert sol inv).opt_val = -sol.opt_val) ∧
    (sol.status ∈ ERROR → (invert sol inv).opt_val = sol.opt_val) ∧
    (inv.minimize → (invert sol inv).opt_val = sol.opt_val) := by
  refine ⟨fun h => ?_, fun h => ?_, fun h => ?_⟩ <;>
    unfold invert <;>
    by_cases hsp : sol.status ∉ SOLUTION_PRESENT <;>
    simp_all

/-- Witness for C5: a maximize problem with a non-error status reports the
negated internal value; a solver-error status passes the value through. -/
theorem invert_opt_val_sign_witness :
    (invert ⟨.optimal, 5, [(0, fun _ => 1)], none, 0⟩
        ⟨[], fun _ => [], false, [], id⟩).opt_val = -5 ∧
    (invert ⟨.solver_error, 7, [], none, 0⟩
        ⟨[], fun _ => [], false, [], id⟩).opt_val = 7 := by
  constructor
  · exact (invert_opt_val_sign ⟨.optimal, 5, [(0, fun _ => 1)], none, 0⟩
      ⟨[], fun _ => [], false, [], id⟩).1 (by constructor <;> decide)
  · exact (invert_opt_val_sign ⟨.solver_error, 7, [], none, 0⟩
      ⟨[], fun _ => [], false, [], id⟩).2.1 (by decide)

/-- C10: when the status carries a solution, invert reads only the first
entry of primal_vars and (when dual_vars is present) the first entry of
dual_vars: two inputs agreeing on status, opt_val, attr, the first primal
entry, and the presence and first entry of the duals produce identical
outputs, whatever further entries the maps contain. -/
theorem invert_depends_only_on_first_entries (s1 s2 : SolutionL)
    (inv : InvDataL)
    (hsp : s1.status ∈ SOLUTION_PRESENT)
    (hstat : s1.status = s2.status)
    (hov : s1.opt_val = s2.opt_val)
    (hattr : s1.attr = s2.attr)
    (hp : s1.primal_vars.head? = s2.primal_vars.head?)
    (hd : s1.dual_vars.map List.head? = s2.dual_vars.map List.head?) :
    invert s1 inv = invert s2 inv := by
  have hd' : (s1.dual_vars.map (fun l => (l.head?.map Prod.snd).getD
      (fun _ => 0))) = (s2.dual_vars.map (fun l => (l.head?.map Prod.snd).getD
      (fun _ => 0))) := by
    rcases h1 : s1.dual_vars with _ | l1 <;> rcases h2 : s2.dual_vars with _ | l2 <;>
      simp_all
  unfold invert
  rw [← hstat, ← hov, ← hattr, if_neg (by simpa using hsp), hp]
  rcases h1 : s1.dual_vars with _ | l1 <;> rcases h2 : s2.dual_vars with _ | l2 <;>
    simp_all

/-- Witness for C10: two optimal solutions differing only in entries past
the first invert identically. -/
theorem invert_depends_only_on_first_entries_witness :
    invert ⟨.optimal, 1, [(0, fun _ => 2)], some [(5, fun _ => 3)], 4⟩
        ⟨[(0, 0)], fun _ => [1], true, [], id⟩
      = invert ⟨.optimal, 1, [(0, fun _ => 2), (9, fun _ => 99)],
          some [(5, fun _ => 3), (8, fun _ => 88)], 4⟩
        ⟨[(0, 0)], fun _ => [1], true, [], id⟩ := by
  exact invert_depends_only_on_first_entries _ _ _
    (by decide) rfl rfl rfl rfl rfl

/-! ### Constraint lowering, grouping, and the dual-variable id map
(cone_matrix_stuffing.py lines 176-216, matrix_stuffing.py lines 59-98).

Fresh dual variables are created whenever a constraint object is
constructed, with ids drawn from the process-wide monotonically increasing
counter; the counter is threaded explicitly here.  `lower_equality`,
`lower_inequality` and `group_constraints` live in
cvxpy/reductions/utilities.py, which is not under src/; they are modelled
from the spec (section 4.2). -/

/-- One fresh dual variable per constraint argument (the external
Constraint constructor's behaviour), ids drawn from the counter. -/
def mkDualVars : List Nat → Nat → List DualVar
  | [], _ => []
  | s :: rest, ctr => ⟨ctr, [s]⟩ :: mkDualVars rest (ctr + 1)

/-- Modelled from the spec (4.2, lower_equality / lower_inequality not
under src/): Equality lowers to Zero and Inequality to NonPos, each a
structurally new single-argument constraint keeping constr_id and
carrying freshly created dual variables; an SOC with axis == 1 is rebuilt
with axis 0 transposing the non-primary argument (src lines 189-191, the
rebuilt constraint again carrying fresh dual variables); all other
constraints pass through unchanged. -/
def lowerConstraint (con : ConstraintL) (ctr : Nat) : ConstraintL × Nat :=
  match con.kind with
  | .equality =>
    (⟨.zero, con.cid, false, [con.argSizes.headD 0],
      [⟨ctr, [con.argSizes.headD 0]⟩]⟩, ctr + 1)
  | .inequality =>
    (⟨.nonpos, con.cid, false, [con.argSizes.headD 0],
      [⟨ctr, [con.argSizes.headD 0]⟩]⟩, ctr + 1)
  | .soc =>
    if con.axis then
      (⟨.soc, con.cid, false, con.argSizes,
        mkDualVars con.argSizes ctr⟩, ctr + con.argSizes.length)
    else (con, ctr)
  | _ => (con, ctr)

/-- The lowering loop over a problem's constraints, keeping each original
constraint next to its lowered form and threading the id counter. -/
def lowerAll : List ConstraintL → Nat → List (ConstraintL × ConstraintL) × Nat
  | [], ctr => ([], ctr)
  | c :: rest, ctr =>
    let p := lowerConstraint c ctr
    let ps := lowerAll rest p.2
    ((c, p.1) :: ps.1, ps.2)

/-- The dv_id_map entries one constraint contributes:
`for dv_old, dv_new in zip(orig.dual_variables, new.dual_variables):
 dv_id_map[dv_new] = dv_old`, i.e. (new, old) pairs, truncated to the
shorter list. -/
def dvPairs (orig new : ConstraintL) : List (DualVar × DualVar) :=
  (orig.dualVars.zip new.dualVars).map (fun p => (p.2, p.1))

/-- Modelled from the spec (4.2, group_constraints not under src/):
partitions a constraint list by kind, preserving relative order. -/
def groupBucket (l : List ConstraintL) (k : CKind) : List ConstraintL :=
  l.filter (fun c => c.kind == k)

/-- The reordering of cone_matrix_stuffing.py lines 196-199: the five
buckets concatenated as Zero, NonPos, SOC, PSD, ExpCone. -/
def groupOrder (l : List ConstraintL) : List ConstraintL :=
  groupBucket l .zero ++ groupBucket l .nonpos ++ groupBucket l .soc ++
    groupBucket l .psd ++ groupBucket l .expcone

/-- The constraint/dual bookkeeping of ConeMatrixStuffing.apply
(cone_matrix_stuffing.py lines 176-216): the ordered constraint list
stored in InverseData.constraints and in the ParamConeProg, and
InverseData.dv_id_map.  (Objective and coefficient extraction are
performed by CoeffExtractor, which is external to src/ and not consumed
by the properties below.) -/
structure ConeApplyOut where
  ordered : List ConstraintL
  dvMap : List (DualVar × DualVar)

def coneApply (cons : List ConstraintL) (ctr : Nat) : ConeApplyOut × Nat :=
  let ps := lowerAll cons ctr
  ({ ordered := groupOrder (ps.1.map Prod.snd),
     dvMap := (ps.1.map (fun p => dvPairs p.1 p.2)).flatten }, ps.2)

/-- con.copy(arg_list): a structurally new constraint of the same kind
with the same constr_id and argument sizes, carrying freshly created dual
variables. -/
def copyConstraint (con : ConstraintL) (ctr : Nat) : ConstraintL × Nat :=
  (⟨con.kind, con.cid, con.axis, con.argSizes,
    mkDualVars con.argSizes ctr⟩, ctr + con.argSizes.length)

/-- The copy loop of MatrixStuffing.apply (matrix_stuffing.py lines
81-93), pairing each lowered constraint with its copy. -/
def copyAll : List ConstraintL → Nat → List (ConstraintL × ConstraintL) × Nat
  | [], ctr => ([], ctr)
  | c :: rest, ctr =>
    let p := copyConstraint c ctr
    let ps := copyAll rest p.2
    ((c, p.1) :: ps.1, ps.2)

structure MatrixApplyOut where
  newCons : List ConstraintL
  dvMap : List (DualVar × DualVar)

/-- The constraint/dual bookkeeping of MatrixStuffing.apply
(matrix_stuffing.py lines 59-98): constraints are lowered (no grouping),
each lowered constraint is rebuilt via con.copy over the freshly stuffed
arguments, and dv_id_map zips the lowered constraint's dual variables
(`con.dual_variables` — not the input constraint's) with the copy's. -/
def matrixApply (cons : List ConstraintL) (ctr : Nat) : MatrixApplyOut × Nat :=
  let lp := lowerAll cons ctr
  let cp := copyAll (lp.1.map Prod.snd) lp.2
  ({ newCons := cp.1.map Prod.snd,
     dvMap := (cp.1.map (fun p => dvPairs p.1 p.2)).flatten }, cp.2)

/-- The five canonical kinds, in bucket order. -/
def fiveKinds : List CKind := [.zero, .nonpos, .soc, .psd, .expcone]

lemma lowerConstraint_kind_mem_five (con : ConstraintL) (ctr : Nat) :
    (lowerConstraint con ctr).1.kind ∈ fiveKinds ∨
      ((lowerConstraint con ctr).1 = con ∧ con.kind ∈ fiveKinds) := by
  rcases con with ⟨k, cid, ax, args, dvs⟩
  cases k <;> simp [lowerConstraint, fiveKinds] <;> cases ax <;> simp

lemma lowered_kind_mem_five (cons : List ConstraintL) (ctr : Nat) :
    ∀ c ∈ ((lowerAll cons ctr).1.map Prod.snd), c.kind ∈ fiveKinds := by
  induction cons generalizing ctr with
  | nil => simp [lowerAll]
  | cons c rest ih =>
    intro c' hc'
    simp only [lowerAll, List.map_cons, List.mem_cons] at hc'
    rcases hc' with rfl | hmem
    · rcases lowerConstraint_kind_mem_five c ctr with h | ⟨heq, h⟩
      · exact h
      · rw [heq]; exact h
    · exact ih _ _ hmem

lemma filter_of_filter_not (l : List ConstraintL) (k k' : CKind)
    (hne : k ≠ k') :
    (l.filter (fun c => !(c.kind == k'))).filter (fun c => c.kind == k)
      = l.filter (fun c => c.kind == k) := by
  rw [List.filter_filter]
  apply List.filter_congr
  intro c _
  by_cases h : c.kind = k <;> by_cases h' : c.kind = k' <;> simp_all

lemma multi_filter_perm : ∀ (ks : List CKind) (l : List ConstraintL),
    ks.Nodup → (∀ c ∈ l, c.kind ∈ ks) →
    ((ks.map (fun k => l.filter (fun c => c.kind == k))).flatten).Perm l := by
  intro ks
  induction ks with
  | nil =>
    intro l _ hall
    have : l = [] := by
      cases l with
      | nil => rfl
      | cons c rest => exact absurd (hall c (List.mem_cons_self _ _)) (by simp)
    simp [this]
  | cons k ks ih =>
    intro l hnd hall
    simp only [List.nodup_cons] at hnd
    set l' := l.filter (fun c => !(c.kind == k)) with hl'
    have hrest : ∀ k' ∈ ks, l.filter (fun c => c.kind == k')
        = l'.filter (fun c => c.kind == k') := by
      intro k' hk'
      have hne : k' ≠ k := fun h => hnd.1 (h ▸ hk')
      rw [hl', filter_of_filter_not l k' k hne]
    have hmap : ks.map (fun k' => l.filter (fun c => c.kind == k'))
        = ks.map (fun k' => l'.filter (fun c => c.kind == k')) :=
      List.map_congr_left hrest
    have hall' : ∀ c ∈ l', c.kind ∈ ks := by
      intro c hc
      have hm := List.mem_of_mem_filter hc
      have hf := List.of_mem_filter hc
      have := hall c hm
      simp only [List.mem_cons] at this
      rcases this with h | h
      · simp [h] at hf
      · exact h
    have h1 : (List.map (fun k' => l.filter (fun c => c.kind == k'))
          (k :: ks)).flatten
        = l.filter (fun c => c.kind == k) ++
            (ks.map (fun k' => l'.filter (fun c => c.kind == k'))).flatten := by
      simp [hmap]
    rw [h1]
    exact (List.Perm.append_left _ (ih l' hnd.2 hall')).trans
      (List.filter_append_perm _ l)

lemma groupOrder_perm (l : List ConstraintL)
    (hk : ∀ c ∈ l, c.kind ∈ fiveKinds) : (groupOrder l).Perm l := by
  have h := multi_filter_perm fiveKinds l (by decide) hk
  have he : groupOrder l
      = (fiveKinds.map (fun k => l.filter (fun c => c.kind == k))).flatten := by
    simp [groupOrder, groupBucket, fiveKinds]
  rw [he]
  exact h

/-- C8: in ConeMatrixStuffing.apply the ordered constraint list is the
five kind-buckets concatenated in the fixed order Zero, NonPos, SOC, PSD,
ExpCone over the lowered constraints, it is a permutation of the lowered
constraint list (nothing dropped or duplicated), and each lowered
constraint lies in exactly one of the five buckets. -/
theorem coneApply_ordered_partition (cons : List ConstraintL) (ctr : Nat) :
    (coneApply cons ctr).1.ordered
        = groupBucket ((lowerAll cons ctr).1.map Prod.snd) .zero ++
          groupBucket ((lowerAll cons ctr).1.map Prod.snd) .nonpos ++
          groupBucket ((lowerAll cons ctr).1.map Prod.snd) .soc ++
          groupBucket ((lowerAll cons ctr).1.map Prod.snd) .psd ++
          groupBucket ((lowerAll cons ctr).1.map Prod.snd) .expcone ∧
    ((coneApply cons ctr).1.ordered).Perm
        ((lowerAll cons ctr).1.map Prod.snd) ∧
    ∀ c ∈ (lowerAll cons ctr).1.map Prod.snd,
      (fiveKinds.filter (fun k =>
        c ∈ groupBucket ((lowerAll cons ctr).1.map Prod.snd) k)).length = 1 := by
  refine ⟨rfl, ?_, ?_⟩
  · exact groupOrder_perm _ (lowered_kind_mem_five cons ctr)
  · intro c hc
    classical
    have hmemb : ∀ k, c ∈ groupBucket ((lowerAll cons ctr).1.map Prod.snd) k
        ↔ c.kind = k := by
      intro k
      constructor
      · intro h
        have := List.of_mem_filter h
        simpa using this
      · intro h
        exact List.mem_filter.mpr ⟨hc, by simp [h]⟩
    have hk := lowered_kind_mem_five cons ctr c hc
    have : fiveKinds.filter (fun k =>
        c ∈ groupBucket ((lowerAll cons ctr).1.map Prod.snd) k)
        = fiveKinds.filter (fun k => c.kind = k) := by
      apply List.filter_congr
      intro k _
      simp [hmemb k]
    rw [this]
    simp only [fiveKinds, List.mem_cons, List.not_mem_nil, or_false] at hk
    rcases hk with h | h | h | h | h <;> rw [show fiveKinds.filter (fun k => c.kind = k)
      = fiveKinds.filter (fun k => decide (c.kind = k)) from rfl] <;>
      simp only [h] <;> decide

/-- Witness for C8 at a concrete constraint list: an Equality, an ExpCone
and a NonPos constraint. -/
theorem coneApply_ordered_partition_witness :
    ((coneApply
        [⟨.equality, 0, false, [2, 2], [⟨10, [2]⟩, ⟨11, [2]⟩]⟩,
         ⟨.expcone, 1, false, [1, 1, 1], [⟨12, [1]⟩, ⟨13, [1]⟩, ⟨14, [1]⟩]⟩,
         ⟨.nonpos, 2, false, [3], [⟨15, [3]⟩]⟩] 100).1.ordered).Perm
      ((lowerAll
        [⟨.equality, 0, false, [2, 2], [⟨10, [2]⟩, ⟨11, [2]⟩]⟩,
         ⟨.expcone, 1, false, [1, 1, 1], [⟨12, [1]⟩, ⟨13, [1]⟩, ⟨14, [1]⟩]⟩,
         ⟨.nonpos, 2, false, [3], [⟨15, [3]⟩]⟩] 100).1.map Prod.snd) := by
  exact (coneApply_ordered_partition _ 100).2.1

/-! ### The dual-variable id map (claim C9) -/

/-- All dual-variable ids of a constraint list, in order. -/
def dualIdsOfList (cons : List ConstraintL) : List Nat :=
  (cons.map (fun c => c.dualVars.map DualVar.id)).flatten

/-- Well-formedness of an input problem's constraints, as guaranteed by
the external constraint constructors: one dual variable per argument,
Equality and Inequality are binary, all dual-variable ids are distinct and
below the current id counter. -/
def WFCons (cons : List ConstraintL) (ctr : Nat) : Prop :=
  (∀ c ∈ cons, c.dualVars.length = c.argSizes.length) ∧
  (∀ c ∈ cons, (c.kind = .equality ∨ c.kind = .inequality) →
    c.argSizes.length = 2) ∧
  (dualIdsOfList cons).Nodup ∧
  (∀ i ∈ dualIdsOfList cons, i < ctr)

lemma mkDualVars_ids (l : List Nat) (ctr : Nat) :
    (mkDualVars l ctr).map DualVar.id = List.range' ctr l.length := by
  induction l generalizing ctr with
  | nil => rfl
  | cons s rest ih => simp [mkDualVars, List.range', ih]

lemma mkDualVars_length (l : List Nat) (ctr : Nat) :
    (mkDualVars l ctr).length = l.length := by
  induction l generalizing ctr with
  | nil => rfl
  | cons s rest ih => simp [mkDualVars, ih]

lemma lowerConstraint_ctr_le (c : ConstraintL) (ctr : Nat) :
    ctr ≤ (lowerConstraint c ctr).2 := by
  rcases c with ⟨k, cid, ax, args, dvs⟩
  cases k <;> cases ax <;> simp [lowerConstraint]

lemma lowerConstraint_ids (c : ConstraintL) (ctr : Nat) :
    ∀ i ∈ (lowerConstraint c ctr).1.dualVars.map DualVar.id,
      i ∈ c.dualVars.map DualVar.id ∨
        (ctr ≤ i ∧ i < (lowerConstraint c ctr).2) := by
  rcases c with ⟨k, cid, ax, args, dvs⟩
  cases k <;> cases ax <;> intro i hi
  case equality.false | equality.true | inequality.false | inequality.true =>
    right
    simp only [lowerConstraint, List.map_cons, List.map_nil,
      List.mem_singleton] at hi ⊢
    omega
  case soc.true =>
    right
    simp only [lowerConstraint, reduceIte, mkDualVars_ids,
      List.mem_range'_1] at hi ⊢
    omega
  all_goals (left; simpa [lowerConstraint] using hi)

lemma lowerConstraint_nodup (c : ConstraintL) (ctr : Nat)
    (h : (c.dualVars.map DualVar.id).Nodup) :
    ((lowerConstraint c ctr).1.dualVars.map DualVar.id).Nodup := by
  rcases c with ⟨k, cid, ax, args, dvs⟩
  cases k <;> cases ax
  case equality.false | equality.true | inequality.false | inequality.true =>
    simp [lowerConstraint]
  case soc.true =>
    simp only [lowerConstraint, reduceIte, mkDualVars_ids]
    exact List.nodup_range' ctr args.length 1 (by norm_num)
  all_goals simpa [lowerConstraint] using h

lemma lowerConstraint_len (c : ConstraintL) (ctr : Nat)
    (h1 : c.dualVars.length = c.argSizes.length)
    (h2 : (c.kind = .equality ∨ c.kind = .inequality) →
      c.argSizes.length = 2) :
    (lowerConstraint c ctr).1.dualVars.length ≤ c.dualVars.length ∧
    (lowerConstraint c ctr).1.dualVars.length
      = (lowerConstraint c ctr).1.argSizes.length := by
  rcases c with ⟨k, cid, ax, args, dvs⟩
  simp only at h1 h2
  cases k <;> simp only [lowerConstraint]
  case equality =>
    have := h2 (Or.inl rfl)
    refine ⟨?_, rfl⟩
    show 1 ≤ dvs.length
    omega
  case inequality =>
    have := h2 (Or.inr rfl)
    refine ⟨?_, rfl⟩
    show 1 ≤ dvs.length
    omega
  case soc =>
    cases ax
    · simp [h1]
    · simp [mkDualVars_length, h1]
  all_goals simp [h1]

lemma lowerAll_fst (cons : List ConstraintL) (ctr : Nat) :
    (lowerAll cons ctr).1.map Prod.fst = cons := by
  induction cons generalizing ctr with
  | nil => rfl
  | cons c rest ih => simp [lowerAll, ih]

lemma lowerAll_ctr_le (cons : List ConstraintL) (ctr : Nat) :
    ctr ≤ (lowerAll cons ctr).2 := by
  induction cons generalizing ctr with
  | nil => simp [lowerAll]
  | cons c rest ih =>
    simp only [lowerAll]
    exact le_trans (lowerConstraint_ctr_le c ctr) (ih _)

lemma lowerAll_ids (cons : List ConstraintL) (ctr : Nat)
    (hnd : (dualIdsOfList cons).Nodup)
    (hlt : ∀ i ∈ dualIdsOfList cons, i < ctr) :
    (dualIdsOfList ((lowerAll cons ctr).1.map Prod.snd)).Nodup ∧
    (∀ i ∈ dualIdsOfList ((lowerAll cons ctr).1.map Prod.snd),
      i ∈ dualIdsOfList cons ∨ (ctr ≤ i ∧ i < (lowerAll cons ctr).2)) := by
  induction cons generalizing ctr with
  | nil => simp [lowerAll, dualIdsOfList]
  | cons c rest ih =>
    have hsplit : dualIdsOfList (c :: rest)
        = c.dualVars.map DualVar.id ++ dualIdsOfList rest := by
      simp [dualIdsOfList]
    rw [hsplit] at hnd hlt
    have hndc : (c.dualVars.map DualVar.id).Nodup :=
      (List.nodup_append.mp hnd).1
    have hndr : (dualIdsOfList rest).Nodup :=
      (List.nodup_append.mp hnd).2.1
    have hdisj : ∀ i ∈ c.dualVars.map DualVar.id,
        i ∉ dualIdsOfList rest := by
      intro i hic hir
      exact (List.nodup_append.mp hnd).2.2 hic hir
    have hltc : ∀ i ∈ c.dualVars.map DualVar.id, i < ctr :=
      fun i hi => hlt i (List.mem_append_left _ hi)
    have hltr : ∀ i ∈ dualIdsOfList rest, i < ctr :=
      fun i hi => hlt i (List.mem_append_right _ hi)
    have hctr1 := lowerConstraint_ctr_le c ctr
    have hltr1 : ∀ i ∈ dualIdsOfList rest, i < (lowerConstraint c ctr).2 :=
      fun i hi => lt_of_lt_of_le (hltr i hi) hctr1
    obtain ⟨ihnd, ihsub⟩ := ih ((lowerConstraint c ctr).2) hndr hltr1
    have hgoalsplit :
        dualIdsOfList ((lowerAll (c :: rest) ctr).1.map Prod.snd)
        = (lowerConstraint c ctr).1.dualVars.map DualVar.id ++
          dualIdsOfList
            ((lowerAll rest (lowerConstraint c ctr).2).1.map Prod.snd) := by
      simp [lowerAll, dualIdsOfList]
    rw [hgoalsplit]
    have hctr2 := lowerAll_ctr_le rest (lowerConstraint c ctr).2
    constructor
    · apply List.Nodup.append (lowerConstraint_nodup c ctr hndc) ihnd
      intro i hic hir
      rcases lowerConstraint_ids c ctr i hic with h | ⟨h1, h2⟩
      · rcases ihsub i hir with h' | ⟨h1', _⟩
        · exact hdisj i h h'
        · exact absurd (hltc i h) (by omega)
      · rcases ihsub i hir with h' | ⟨h1', _⟩
        · exact absurd (hltr i h') (by omega)
        · omega
    · intro i hi
      rcases List.mem_append.mp hi with h | h
      · rcases lowerConstraint_ids c ctr i h with h' | ⟨h1, h2⟩
        · exact Or.inl (List.mem_append_left _ h')
        · refine Or.inr ⟨h1, ?_⟩
          calc i < (lowerConstraint c ctr).2 := h2
            _ ≤ (lowerAll rest (lowerConstraint c ctr).2).2 := hctr2
            _ = (lowerAll (c :: rest) ctr).2 := by simp [lowerAll]
      · rcases ihsub i h with h' | ⟨h1, h2⟩
        · exact Or.inl (List.mem_append_right _ h')
        · refine Or.inr ⟨le_trans hctr1 h1, ?_⟩
          calc i < (lowerAll rest (lowerConstraint c ctr).2).2 := h2
            _ = (lowerAll (c :: rest) ctr).2 := by simp [lowerAll]

lemma lowerAll_len (cons : List ConstraintL) (ctr : Nat)
    (h1 : ∀ c ∈ cons, c.dualVars.length = c.argSizes.length)
    (h2 : ∀ c ∈ cons, (c.kind = .equality ∨ c.kind = .inequality) →
      c.argSizes.length = 2) :
    ∀ pr ∈ (lowerAll cons ctr).1,
      pr.2.dualVars.length ≤ pr.1.dualVars.length ∧
      pr.2.dualVars.length = pr.2.argSizes.length := by
  induction cons generalizing ctr with
  | nil => simp [lowerAll]
  | cons c rest ih =>
    intro pr hpr
    simp only [lowerAll, List.mem_cons] at hpr
    rcases hpr with rfl | hmem
    · exact lowerConstraint_len c ctr (h1 c (by simp)) (h2 c (by simp))
    · exact ih _ (fun c' hc' => h1 c' (by simp [hc']))
        (fun c' hc' => h2 c' (by simp [hc'])) pr hmem

lemma copyAll_fst (l : List ConstraintL) (ctr : Nat) :
    (copyAll l ctr).1.map Prod.fst = l := by
  induction l generalizing ctr with
  | nil => rfl
  | cons c rest ih => simp [copyAll, ih]

lemma copyAll_ctr_le (l : List ConstraintL) (ctr : Nat) :
    ctr ≤ (copyAll l ctr).2 := by
  induction l generalizing ctr with
  | nil => simp [copyAll]
  | cons c rest ih =>
    simp only [copyAll, copyConstraint]
    exact le_trans (by omega) (ih (ctr + c.argSizes.length))

lemma copyAll_ids (l : List ConstraintL) (ctr : Nat) :
    (dualIdsOfList ((copyAll l ctr).1.map Prod.snd)).Nodup ∧
    (∀ i ∈ dualIdsOfList ((copyAll l ctr).1.map Prod.snd),
      ctr ≤ i ∧ i < (copyAll l ctr).2) := by
  induction l generalizing ctr with
  | nil => simp [copyAll, dualIdsOfList]
  | cons c rest ih =>
    have hsplit : dualIdsOfList ((copyAll (c :: rest) ctr).1.map Prod.snd)
        = List.range' ctr c.argSizes.length ++
          dualIdsOfList
            ((copyAll rest (ctr + c.argSizes.length)).1.map Prod.snd) := by
      simp [copyAll, copyConstraint, dualIdsOfList, mkDualVars_ids]
    obtain ⟨ihnd, ihsub⟩ := ih (ctr + c.argSizes.length)
    rw [hsplit]
    have hend : (copyAll (c :: rest) ctr).2
        = (copyAll rest (ctr + c.argSizes.length)).2 := by
      simp [copyAll, copyConstraint]
    constructor
    · apply List.Nodup.append
        (List.nodup_range' ctr c.argSizes.length 1 (by norm_num)) ihnd
      intro i hir hic
      rw [List.mem_range'_1] at hir
      have := ihsub i hic
      omega
    · intro i hi
      rcases List.mem_append.mp hi with h | h
      · rw [List.mem_range'_1] at h
        have := copyAll_ctr_le rest (ctr + c.argSizes.length)
        rw [hend]
        omega
      · have := ihsub i h
        rw [hend]
        omega

lemma copyConstraint_len (c : ConstraintL) (ctr : Nat) :
    (copyConstraint c ctr).1.dualVars.length = c.argSizes.length := by
  simp [copyConstraint, mkDualVars_length]

lemma copyAll_len (l : List ConstraintL) (ctr : Nat)
    (h : ∀ c ∈ l, c.dualVars.length = c.argSizes.length) :
    ∀ pr ∈ (copyAll l ctr).1,
      pr.2.dualVars.length = pr.1.dualVars.length := by
  induction l generalizing ctr with
  | nil => simp [copyAll]
  | cons c rest ih =>
    intro pr hpr
    simp only [copyAll, List.mem_cons] at hpr
    rcases hpr with rfl | hmem
    · simp [copyConstraint_len, h c (by simp)]
    · exact ih _ (fun c' hc' => h c' (by simp [hc'])) pr hmem

lemma dvPairs_mem (orig new : ConstraintL) (j : Nat)
    (hj : j < new.dualVars.length)
    (hle : new.dualVars.length ≤ orig.dualVars.length) :
    (new.dualVars.getD j ⟨0, []⟩, orig.dualVars.getD j ⟨0, []⟩)
      ∈ dvPairs orig new := by
  have hjz : j < (orig.dualVars.zip new.dualVars).length := by
    rw [List.length_zip]
    omega
  have hjo : j < orig.dualVars.length := lt_of_lt_of_le hj hle
  apply List.mem_map.mpr
  refine ⟨(orig.dualVars.zip new.dualVars).get ⟨j, hjz⟩,
    List.get_mem _ _ _, ?_⟩
  have : (orig.dualVars.zip new.dualVars).get ⟨j, hjz⟩
      = (orig.dualVars[j], new.dualVars[j]) := by
    simp [List.getElem_zip]
  rw [this, List.getD_eq_getElem _ _ hjo, List.getD_eq_getElem _ _ hj]

lemma dvPairs_keys (orig new : ConstraintL)
    (hle : new.dualVars.length ≤ orig.dualVars.length) :
    (dvPairs orig new).map Prod.fst = new.dualVars := by
  unfold dvPairs
  rw [List.map_map]
  have : (Prod.fst ∘ fun p : DualVar × DualVar => (p.2, p.1)) = Prod.snd := rfl
  rw [this]
  exact List.map_snd_zip _ _ hle

/-- C9 counterexample: on a problem whose single constraint is an
Equality, MatrixStuffing.apply's dv_id_map maps the new constraint's dual
variable to a dual variable of the intermediate lowered constraint, which
is not a dual variable of the original constraint supplied in the input
problem. -/
theorem matrixApply_dv_map_not_original :
    (matrixApply [⟨.equality, 0, false, [1, 1], [⟨10, [1]⟩, ⟨11, [1]⟩]⟩]
        100).1.dvMap = [(⟨101, [1]⟩, ⟨100, [1]⟩)] ∧
    ((⟨100, [1]⟩ : DualVar)
      ∉ (⟨.equality, 0, false, [1, 1],
          [⟨10, [1]⟩, ⟨11, [1]⟩]⟩ : ConstraintL).dualVars) := by
  constructor
  · rfl
  · decide

/-- C9 amended: in ConeMatrixStuffing.apply, dv_id_map carries one entry
per dual variable of each resulting constraint, mapping it 1:1 to the
positionally corresponding dual variable of the original constraint
supplied in the input problem; in MatrixStuffing.apply, dv_id_map instead
maps each new constraint's dual variables 1:1 to those of the
intermediate lowered constraint (which coincide with the original's only
when lowering passed the constraint through unchanged). -/
theorem dv_id_map_characterization (cons : List ConstraintL) (ctr : Nat)
    (hwf : WFCons cons ctr) :
    ((lowerAll cons ctr).1.map Prod.fst = cons) ∧
    (∀ pr ∈ (lowerAll cons ctr).1, ∀ j, j < pr.2.dualVars.length →
      (pr.2.dualVars.getD j ⟨0, []⟩, pr.1.dualVars.getD j ⟨0, []⟩)
        ∈ (coneApply cons ctr).1.dvMap) ∧
    (((coneApply cons ctr).1.dvMap.map (fun pr => pr.1.id)).Nodup) ∧
    (∀ pr ∈ (copyAll ((lowerAll cons ctr).1.map Prod.snd)
        (lowerAll cons ctr).2).1,
      ∀ j, j < pr.2.dualVars.length →
      (pr.2.dualVars.getD j ⟨0, []⟩, pr.1.dualVars.getD j ⟨0, []⟩)
        ∈ (matrixApply cons ctr).1.dvMap) ∧
    (((matrixApply cons ctr).1.dvMap.map (fun pr => pr.1.id)).Nodup) := by
  obtain ⟨hw1, hw2, hw3, hw4⟩ := hwf
  have hlen := lowerAll_len cons ctr hw1 hw2
  refine ⟨lowerAll_fst cons ctr, ?_, ?_, ?_, ?_⟩
  · intro pr hpr j hj
    have hle := (hlen pr hpr).1
    apply List.mem_flatten.mpr
    exact ⟨dvPairs pr.1 pr.2,
      List.mem_map.mpr ⟨pr, hpr, rfl⟩, dvPairs_mem pr.1 pr.2 j hj hle⟩
  · have hkeyeq : ((coneApply cons ctr).1.dvMap.map Prod.fst)
        = ((lowerAll cons ctr).1.map (fun pr => pr.2.dualVars)).flatten := by
      show (((lowerAll cons ctr).1.map
          (fun p => dvPairs p.1 p.2)).flatten.map Prod.fst) = _
      rw [List.map_flatten, List.map_map]
      congr 1
      apply List.map_congr_left
      intro pr hpr
      exact dvPairs_keys pr.1 pr.2 (hlen pr hpr).1
    have hids : (((coneApply cons ctr).1.dvMap.map Prod.fst).map
        DualVar.id).Nodup := by
      rw [hkeyeq]
      have : (((lowerAll cons ctr).1.map
          (fun pr => pr.2.dualVars)).flatten.map DualVar.id)
          = dualIdsOfList ((lowerAll cons ctr).1.map Prod.snd) := by
        rw [List.map_flatten, List.map_map]
        simp only [dualIdsOfList, List.map_map]
        rfl
      rw [this]
      exact (lowerAll_ids cons ctr hw3 hw4).1
    rw [List.map_map] at hids
    exact hids
  · intro pr hpr j hj
    have hlow : ∀ c ∈ (lowerAll cons ctr).1.map Prod.snd,
        c.dualVars.length = c.argSizes.length := by
      intro c hc
      rcases List.mem_map.mp hc with ⟨pr', hpr', rfl⟩
      exact (hlen pr' hpr').2
    have heq := copyAll_len _ (lowerAll cons ctr).2 hlow pr hpr
    apply List.mem_flatten.mpr
    exact ⟨dvPairs pr.1 pr.2, List.mem_map.mpr ⟨pr, hpr, rfl⟩,
      dvPairs_mem pr.1 pr.2 j hj (le_of_eq heq)⟩
  · have hlow : ∀ c ∈ (lowerAll cons ctr).1.map Prod.snd,
        c.dualVars.length = c.argSizes.length := by
      intro c hc
      rcases List.mem_map.mp hc with ⟨pr', hpr', rfl⟩
      exact (hlen pr' hpr').2
    have hkeyeq : ((matrixApply cons ctr).1.dvMap.map Prod.fst)
        = ((copyAll ((lowerAll cons ctr).1.map Prod.snd)
            (lowerAll cons ctr).2).1.map (fun pr => pr.2.dualVars)).flatten := by
      show (((copyAll ((lowerAll cons ctr).1.map Prod.snd)
          (lowerAll cons ctr).2).1.map
          (fun p => dvPairs p.1 p.2)).flatten.map Prod.fst) = _
      rw [List.map_flatten, List.map_map]
      congr 1
      apply List.map_congr_left
      intro pr hpr
      exact dvPairs_keys pr.1 pr.2
        (le_of_eq (copyAll_len _ _ hlow pr hpr))
    have hids : (((matrixApply cons ctr).1.dvMap.map Prod.fst).map
        DualVar.id).Nodup := by
      rw [hkeyeq]
      have : (((copyAll ((lowerAll cons ctr).1.map Prod.snd)
          (lowerAll cons ctr).2).1.map
          (fun pr => pr.2.dualVars)).flatten.map DualVar.id)
          = dualIdsOfList ((copyAll ((lowerAll cons ctr).1.map Prod.snd)
              (lowerAll cons ctr).2).1.map Prod.snd) := by
        rw [List.map_flatten, List.map_map]
        simp only [dualIdsOfList, List.map_map]
        rfl
      rw [this]
      exact (copyAll_ids _ _).1
    rw [List.map_map] at hids
    exact hids

/-- Witness for the amended C9 at a concrete one-Equality problem. -/
theorem dv_id_map_characterization_witness :
    ((coneApply [⟨.equality, 0, false, [1, 1], [⟨10, [1]⟩, ⟨11, [1]⟩]⟩]
        100).1.dvMap.map (fun pr => pr.1.id)).Nodup := by
  exact (dv_id_map_characterization
    [⟨.equality, 0, false, [1, 1], [⟨10, [1]⟩, ⟨11, [1]⟩]⟩] 100
    (by refine ⟨?_, ?_, ?_, ?_⟩ <;> decide)).2.2.1

/-! ### treat_params_as_affine (parameter.py lines 26-43)

The scope's observable state: the `_is_constant` flag of each of the
expression's parameters (in `expr.parameters()` order), the expression's
cached constancy (recomputed by `expr._check_is_constant(recompute=True)`
as a function of the current flags; the recomputation function is
external to src/ and is a parameter of the model), and the cache-disable
flag toggled by the surrounding `perf.disable_caches()` scope (external;
assumed to restore correctly on all exits, as Python's `with` statement
guarantees for a correct context manager).

The body of the `with treat_params_as_affine(expr)` block either returns
normally or raises; a raising body is modelled as `Except.error` carrying
the state at the point of the raise.  Crucially, the source's generator
has no try/finally around its `yield`: when the body raises, the
statements after `yield` (the flag restoration and the cache
recomputation) never run. -/

structure ParamScopeState where
  paramFlags : List Bool
  cachedConstant : Bool
  cachesDisabled : Bool

/-- The constancy recomputation `expr._check_is_constant(recompute=True)`
performs, as a function of the parameter flags (external to src/). -/
def recomputeCache (constFn : List Bool → Bool) (s : ParamScopeState) :
    ParamScopeState :=
  { s with cachedConstant := constFn s.paramFlags }

/-- Restoration loop `for p, flag in zip(expr.parameters(),
old_constant_flags): p._is_constant = flag`: positions past the zip keep
their current value. -/
def restoreFlags (cur old : List Bool) : List Bool :=
  (cur.zip old).map Prod.snd ++ cur.drop old.length

/-- treat_params_as_affine (parameter.py lines 26-43): enters the
cache-disabling scope, saves the flags, clears every parameter's
`_is_constant`, recomputes the cached constancy, runs the body, and — on
a normal exit only, the generator having no try/finally — restores the
saved flags and recomputes the cached constancy again.  On a raising
body the exception propagates with the flags as the body left them
(only the external cache-disabling scope unwinds). -/
def treat_params_as_affine (constFn : List Bool → Bool)
    (s : ParamScopeState)
    (body : ParamScopeState → Except ParamScopeState (ParamScopeState × α)) :
    Except ParamScopeState (ParamScopeState × α) :=
  let old_constant_flags := s.paramFlags
  let s1 := recomputeCache constFn
    { s with paramFlags := s.paramFlags.map (fun _ => false),
             cachesDisabled := true }
  match body s1 with
  | .error sErr => .error { sErr with cachesDisabled := s.cachesDisabled }
  | .ok (s2, a) =>
    let s3 := recomputeCache constFn
      { s2 with paramFlags := restoreFlags s2.paramFlags old_constant_flags }
    .ok ({ s3 with cachesDisabled := s.cachesDisabled }, a)

/-- C7, normal-exit part: when the body returns normally without touching
the flag list's length, every parameter's prior constancy flag is
restored and the cached constancy is recomputed from the restored
flags. -/
theorem treat_params_as_affine_normal_exit (constFn : List Bool → Bool)
    (s : ParamScopeState) (s2 : ParamScopeState) (a : α)
    (body : ParamScopeState → Except ParamScopeState (ParamScopeState × α))
    (hbody : body (recomputeCache constFn
      { s with paramFlags := s.paramFlags.map (fun _ => false),
               cachesDisabled := true }) = .ok (s2, a))
    (hlen : s2.paramFlags.length = s.paramFlags.length) :
    ∃ sOut, treat_params_as_affine constFn s body = .ok (sOut, a) ∧
      sOut.paramFlags = s.paramFlags ∧
      sOut.cachedConstant = constFn s.paramFlags ∧
      sOut.cachesDisabled = s.cachesDisabled := by
  have hrestore : restoreFlags s2.paramFlags s.paramFlags = s.paramFlags := by
    unfold restoreFlags
    rw [List.map_snd_zip _ _ (le_of_eq hlen.symm),
      List.drop_eq_nil_of_le (le_of_eq hlen), List.append_nil]
  refine ⟨⟨s.paramFlags, constFn s.paramFlags, s.cachesDisabled⟩,
    ?_, rfl, rfl, rfl⟩
  unfold treat_params_as_affine
  simp only []
  rw [hbody]
  simp [recomputeCache, hrestore]

/-- C7 failing input: a body that raises inside the scope.  The flags are
left cleared (non-constant), not restored to their prior values, and the
cached constancy is not recomputed — the source's generator has no
try/finally around its yield, so the restoration statements never run on
the exception path. -/
theorem treat_params_as_affine_exception_no_restore :
    ∃ sErr,
      treat_params_as_affine (fun flags => flags.all id)
        ⟨[true], true, false⟩
        (fun st => (Except.error st :
          Except ParamScopeState (ParamScopeState × Unit)))
        = .error sErr ∧
      sErr.paramFlags = [false] ∧
      sErr.paramFlags ≠ [true] ∧
      sErr.cachedConstant = false := by
  refine ⟨⟨[false], false, false⟩, rfl, rfl, by decide, rfl⟩

/-- Witness for the normal-exit part of C7 at a concrete state and
body. -/
theorem treat_params_as_affine_normal_exit_witness :
    ∃ sOut, treat_params_as_affine (fun flags => flags.all id)
        ⟨[true, false], false, false⟩ (fun st => .ok (st, (3 : Nat)))
        = .ok (sOut, 3) ∧
      sOut.paramFlags = [true, false] ∧
      sOut.cachedConstant = ([true, false].all id) ∧
      sOut.cachesDisabled = false := by
  exact treat_params_as_affine_normal_exit (fun flags => flags.all id)
    ⟨[true, false], false, false⟩ _ 3 _ rfl rfl

/-! ### ParamConeProg.apply_parameters / apply_param_jac
(cone_matrix_stuffing.py lines 70-122).

The parameter layout is modelled from the spec (section 3;
`InverseData.param_id_map` is not under src/): parameters are laid out in
order at consecutive column offsets (prefix sums of their sizes), with
the reserved CONSTANT_ID column last, at offset `total_param_size`.
Parameters are identified here by their position in that order (the dict
keyed by parameter id is in bijection with positions, ids being
distinct); a parameter's value is carried as its Fortran-order flattened
entries `Nat → ℚ`. -/

/-- The flattened parameter vector's non-constant part: the loop
`param_vec[col:param.size+col] = value.flatten(order='F')` over the
parameter layout.  `vals i k` is entry `k` of parameter `i`'s flattened
value; columns at or past the total size give 0. -/
def flatVals : List Nat → (Nat → Nat → ℚ) → Nat → ℚ
  | [], _, _ => 0
  | s :: rest, vals, c =>
    if c < s then vals 0 c else flatVals rest (fun i => vals (i + 1)) (c - s)

/-- The full flattened parameter vector of length total_param_size + 1:
parameter values at their column ranges and 1 in the constant column. -/
def paramVecF (sizes : List Nat) (vals : Nat → Nat → ℚ) (c : Nat) : ℚ :=
  if c = sizes.sum then 1 else flatVals sizes vals c

/-- A ParamConeProg's coefficient data: `n = x.size`, `m` constraint rows,
the parameter sizes in layout order, the objective coefficient matrix
`c` of shape (n+1) × (P+1) (last row the offset d), and the constraint
coefficient matrix `A` of shape (m*(n+1)) × (P+1), where
P = total_param_size. -/
structure PCPData where
  n : Nat
  m : Nat
  sizes : List Nat
  C : Nat → Nat → ℚ
  A : Nat → Nat → ℚ

/-- Row `r` of `M · v` with `cols` columns. -/
def mulVecR (M : Nat → Nat → ℚ) (cols : Nat) (v : Nat → ℚ) (r : Nat) : ℚ :=
  ∑ j in Finset.range cols, M r j * v j

/-- The numeric output of apply_parameters: the objective vector
`c = self.c @ param_vec` (length n+1, last entry the offset d) and the
constraint matrix `A = (self.A @ param_vec).reshape((rows, n+1),
order='F')` (column n is the constant column b).  Under Fortran order,
entry (i, j) of the reshaped matrix is flat entry i + m*j. -/
structure ApplyOut where
  c : Nat → ℚ
  A : Nat → Nat → ℚ

/-- The numeric core of ParamConeProg.apply_parameters, given every
parameter's resolved flattened value. -/
def applyParams (d : PCPData) (vals : Nat → Nat → ℚ) : ApplyOut :=
  { c := fun r => mulVecR d.C (d.sizes.sum + 1) (paramVecF d.sizes vals) r,
    A := fun i j =>
      mulVecR d.A (d.sizes.sum + 1) (paramVecF d.sizes vals) (i + d.m * j) }

/-- The `param_value` closure of apply_parameters (lines 76-78): when no
override dict is passed, a parameter's stored value is used; when a dict
is passed, the value is looked up in the dict only (a missing key is a
failure — stored values are not consulted). -/
def resolveValue (stored : Nat → Option (Nat → ℚ))
    (id_to_param_value : Option (Nat → Option (Nat → ℚ))) (idx : Nat) :
    Option (Nat → ℚ) :=
  match id_to_param_value with
  | none => stored idx
  | some f => f idx

/-- Resolves every parameter below `k`, failing if any lacks a value. -/
def resolveAll : Nat → (Nat → Option (Nat → ℚ)) → Option (Nat → Nat → ℚ)
  | 0, _ => some fun _ _ => 0
  | k + 1, res =>
    match res k, resolveAll k res with
    | some v, some acc => some (fun i => if i = k then v else acc i)
    | _, _ => none

/-- ParamConeProg.apply_parameters with its failure behaviour: each
parameter's value is resolved by `param_value`; a parameter with no
resolved value makes the call fail. -/
def applyParametersOpt (d : PCPData) (stored : Nat → Option (Nat → ℚ))
    (id_to_param_value : Option (Nat → Option (Nat → ℚ))) :
    Option ApplyOut :=
  (resolveAll d.sizes.length (resolveValue stored id_to_param_value)).map
    (fun vals => applyParams d vals)

/-- delAb of apply_param_jac (lines 109-110): the Fortran flattening of
delA (m × n) stacked above delb (length m); flat index k of the m × (n+1)
layout has row k % m and column k / m. -/
def stackAb (m n : Nat) (delA : Nat → Nat → ℚ) (delb : Nat → ℚ)
    (k : Nat) : ℚ :=
  if k < m * n then delA (k % m) (k / m) else delb (k - m * n)

/-- del_param_vec of apply_param_jac (lines 108-112):
`delc @ self.c[:-1] + delAb.T @ self.A` (the last row of `self.c`, the
offset d's row, is dropped). -/
def delPVec (d : PCPData) (delc : Nat → ℚ) (delA : Nat → Nat → ℚ)
    (delb : Nat → ℚ) (c : Nat) : ℚ :=
  (∑ r in Finset.range d.n, delc r * d.C r c) +
    ∑ k in Finset.range (d.m * (d.n + 1)),
      stackAb d.m d.n delA delb k * d.A k c

/-- Column offset of parameter `i` in the layout (prefix sum of sizes). -/
def colOf (sizes : List Nat) (i : Nat) : Nat := (sizes.take i).sum

/-- ParamConeProg.apply_param_jac with the default (all-parameters)
active set: the per-parameter dict of slices of del_param_vec, each
reshaped to the parameter's shape in Fortran order (`jac i k` is entry
`k` of parameter `i`'s flattened delta). -/
def apply_param_jac (d : PCPData) (delc : Nat → ℚ) (delA : Nat → Nat → ℚ)
    (delb : Nat → ℚ) : Nat → Nat → ℚ :=
  fun i k => delPVec d delc delA delb (colOf d.sizes i + k)

/-- Inner product of two per-parameter dicts of flattened values (one
summand per entry of each parameter). -/
def dictInner : List Nat → (Nat → Nat → ℚ) → (Nat → Nat → ℚ) → ℚ
  | [], _, _ => 0
  | s :: rest, d1, d2 =>
    (∑ k in Finset.range s, d1 0 k * d2 0 k) +
      dictInner rest (fun i => d1 (i + 1)) (fun i => d2 (i + 1))

lemma sum_range_split (a b : Nat) (f : Nat → ℚ) :
    ∑ k in Finset.range (a + b), f k
      = (∑ k in Finset.range a, f k) + ∑ k in Finset.range b, f (a + k) := by
  induction b with
  | zero => simp
  | succ b ih =>
    rw [show a + (b + 1) = (a + b) + 1 from rfl, Finset.sum_range_succ,
      ih, Finset.sum_range_succ]
    exact add_assoc _ _ _

lemma sum_range_grid (q m : Nat) (f : Nat → ℚ) :
    ∑ k in Finset.range (q * m), f k
      = ∑ j in Finset.range q, ∑ i in Finset.range m, f (j * m + i) := by
  induction q with
  | zero => simp
  | succ q ih =>
    rw [Nat.succ_mul, sum_range_split, ih, Finset.sum_range_succ]

lemma sum_transpose (p q : Nat) (u : Nat → ℚ) (M : Nat → Nat → ℚ)
    (v : Nat → ℚ) :
    ∑ c in Finset.range q, (∑ r in Finset.range p, u r * M r c) * v c
      = ∑ r in Finset.range p, u r * ∑ c in Finset.range q, M r c * v c := by
  simp_rw [Finset.sum_mul, Finset.mul_sum]
  rw [Finset.sum_comm]
  apply Finset.sum_congr rfl
  intro r _
  apply Finset.sum_congr rfl
  intro c _
  ring

lemma flatVals_zero_of_ge (sizes : List Nat) (vals : Nat → Nat → ℚ)
    (c : Nat) (h : sizes.sum ≤ c) : flatVals sizes vals c = 0 := by
  induction sizes generalizing vals c with
  | nil => rfl
  | cons s rest ih =>
    simp only [List.sum_cons] at h
    have hns : ¬ c < s := by omega
    simp only [flatVals, if_neg hns]
    exact ih _ _ (by omega)

lemma flatVals_linear (sizes : List Nat) (p q : Nat → Nat → ℚ) (a b : ℚ)
    (c : Nat) :
    flatVals sizes (fun i k => a * p i k + b * q i k) c
      = a * flatVals sizes p c + b * flatVals sizes q c := by
  induction sizes generalizing p q c with
  | nil => simp [flatVals]
  | cons s rest ih =>
    by_cases h : c < s
    · simp [flatVals, h]
    · simp only [flatVals, if_neg h]
      exact ih _ _ _

lemma flatVals_add (sizes : List Nat) (p q : Nat → Nat → ℚ) (c : Nat) :
    flatVals sizes (fun i k => p i k + q i k) c
      = flatVals sizes p c + flatVals sizes q c := by
  have := flatVals_linear sizes p q 1 1 c
  simpa using this

lemma paramVecF_diff (sizes : List Nat) (p dp : Nat → Nat → ℚ) (c : Nat) :
    paramVecF sizes (fun i k => p i k + dp i k) c - paramVecF sizes p c
      = flatVals sizes dp c := by
  unfold paramVecF
  by_cases h : c = sizes.sum
  · rw [if_pos h, if_pos h, h, flatVals_zero_of_ge _ _ _ le_rfl]
    ring
  · rw [if_neg h, if_neg h, flatVals_add]
    ring

lemma applyParams_diff_c (d : PCPData) (p dp : Nat → Nat → ℚ) (r : Nat) :
    (applyParams d (fun i k => p i k + dp i k)).c r - (applyParams d p).c r
      = ∑ c in Finset.range (d.sizes.sum + 1),
          d.C r c * flatVals d.sizes dp c := by
  simp only [applyParams, mulVecR, ← Finset.sum_sub_distrib]
  apply Finset.sum_congr rfl
  intro c _
  rw [← mul_sub, paramVecF_diff]

lemma applyParams_diff_A (d : PCPData) (p dp : Nat → Nat → ℚ) (i j : Nat) :
    (applyParams d (fun i k => p i k + dp i k)).A i j
        - (applyParams d p).A i j
      = ∑ c in Finset.range (d.sizes.sum + 1),
          d.A (i + d.m * j) c * flatVals d.sizes dp c := by
  simp only [applyParams, mulVecR, ← Finset.sum_sub_distrib]
  apply Finset.sum_congr rfl
  intro c _
  rw [← mul_sub, paramVecF_diff]

lemma dictInner_slice (sizes : List Nat) (f : Nat → ℚ) (g : Nat → Nat → ℚ) :
    dictInner sizes (fun i k => f (colOf sizes i + k)) g
      = ∑ c in Finset.range sizes.sum, f c * flatVals sizes g c := by
  induction sizes generalizing f g with
  | nil => simp [dictInner]
  | cons s rest ih =>
    have hcol0 : colOf (s :: rest) 0 = 0 := rfl
    have hcolsucc : ∀ i, colOf (s :: rest) (i + 1) = s + colOf rest i := by
      intro i
      simp [colOf, List.take_cons, List.sum_cons]
    simp only [dictInner, List.sum_cons]
    rw [sum_range_split]
    congr 1
    · apply Finset.sum_congr rfl
      intro k hk
      rw [Finset.mem_range] at hk
      simp [hcol0, flatVals, hk]
    · have : (fun i k => f (colOf (s :: rest) (i + 1) + k))
          = (fun i k => (fun c => f (s + c)) (colOf rest i + k)) := by
        funext i k
        rw [hcolsucc i]
        ring_nf
      rw [this, ih (fun c => f (s + c)) (fun i => g (i + 1))]
      apply Finset.sum_congr rfl
      intro c _
      have hns : ¬ s + c < s := by omega
      simp [flatVals, hns]

/-- C2: apply_param_jac is linear in its inputs (delc, delA, delb), and
is the exact adjoint of the Jacobian of apply_parameters with respect to
the parameter values: the dict inner product of
apply_param_jac(delc, delA, delb) with a parameter perturbation dp
equals the inner product of (delc, delA, delb) with the directional
derivative of apply_parameters along dp (apply_parameters being affine in
the parameter values, that derivative is the finite difference of its
outputs, with the A-part taken over columns 0..n-1 and the b-part at the
constant column n). -/
theorem apply_param_jac_linear_and_adjoint (d : PCPData)
    (delc delc' : Nat → ℚ) (delA delA' : Nat → Nat → ℚ)
    (delb delb' : Nat → ℚ) (a b : ℚ) (i0 k0 : Nat)
    (dp p : Nat → Nat → ℚ) :
    (apply_param_jac d (fun r => a * delc r + b * delc' r)
        (fun x y => a * delA x y + b * delA' x y)
        (fun x => a * delb x + b * delb' x) i0 k0
      = a * apply_param_jac d delc delA delb i0 k0
        + b * apply_param_jac d delc' delA' delb' i0 k0) ∧
    (dictInner d.sizes (apply_param_jac d delc delA delb) dp
      = (∑ r in Finset.range d.n, delc r *
          ((applyParams d (fun i k => p i k + dp i k)).c r
            - (applyParams d p).c r))
        + (∑ i in Finset.range d.m, ∑ j in Finset.range d.n, delA i j *
            ((applyParams d (fun i k => p i k + dp i k)).A i j
              - (applyParams d p).A i j))
        + ∑ i in Finset.range d.m, delb i *
            ((applyParams d (fun i k => p i k + dp i k)).A i d.n
              - (applyParams d p).A i d.n)) := by
  constructor
  · unfold apply_param_jac delPVec
    have hstack : ∀ k, stackAb d.m d.n
        (fun x y => a * delA x y + b * delA' x y)
        (fun x => a * delb x + b * delb' x) k
        = a * stackAb d.m d.n delA delb k
          + b * stackAb d.m d.n delA' delb' k := by
      intro k
      unfold stackAb
      split <;> ring
    simp_rw [hstack, add_mul]
    rw [Finset.sum_add_distrib, Finset.sum_add_distrib]
    simp_rw [mul_assoc]
    rw [← Finset.mul_sum, ← Finset.mul_sum, ← Finset.mul_sum,
      ← Finset.mul_sum]
    ring
  · -- the adjoint identity
    have hLHS : dictInner d.sizes (apply_param_jac d delc delA delb) dp
        = ∑ c in Finset.range (d.sizes.sum + 1),
            delPVec d delc delA delb c * flatVals d.sizes dp c := by
      unfold apply_param_jac
      rw [dictInner_slice d.sizes (delPVec d delc delA delb) dp,
        Finset.sum_range_succ,
        flatVals_zero_of_ge d.sizes dp d.sizes.sum le_rfl]
      ring
    rw [hLHS]
    simp_rw [delPVec, add_mul, Finset.sum_add_distrib]
    rw [sum_transpose d.n (d.sizes.sum + 1) delc d.C
        (flatVals d.sizes dp),
      sum_transpose (d.m * (d.n + 1)) (d.sizes.sum + 1)
        (stackAb d.m d.n delA delb) d.A (flatVals d.sizes dp)]
    have hc : ∀ r, (∑ c in Finset.range (d.sizes.sum + 1),
        d.C r c * flatVals d.sizes dp c)
        = (applyParams d (fun i k => p i k + dp i k)).c r
            - (applyParams d p).c r :=
      fun r => (applyParams_diff_c d p dp r).symm
    have hA : ∀ i j, (∑ c in Finset.range (d.sizes.sum + 1),
        d.A (i + d.m * j) c * flatVals d.sizes dp c)
        = (applyParams d (fun i k => p i k + dp i k)).A i j
            - (applyParams d p).A i j :=
      fun i j => (applyParams_diff_A d p dp i j).symm
    simp_rw [hc]
    rw [add_assoc]
    congr 1
    -- remaining: the stacked delA/delb sum splits into the delA and delb parts
    have hgrid : ∑ k in Finset.range (d.m * (d.n + 1)),
        stackAb d.m d.n delA delb k *
          ∑ c in Finset.range (d.sizes.sum + 1),
            d.A k c * flatVals d.sizes dp c
        = ∑ j in Finset.range (d.n + 1), ∑ i in Finset.range d.m,
            stackAb d.m d.n delA delb (j * d.m + i) *
              ∑ c in Finset.range (d.sizes.sum + 1),
                d.A (j * d.m + i) c * flatVals d.sizes dp c := by
      rw [mul_comm d.m (d.n + 1)]
      exact sum_range_grid (d.n + 1) d.m _
    rw [hgrid, Finset.sum_range_succ]
    congr 1
    · -- columns 0..n-1: the delA part
      rw [Finset.sum_comm]
      apply Finset.sum_congr rfl
      intro i hi
      apply Finset.sum_congr rfl
      intro j hj
      rw [Finset.mem_range] at hi hj
      have hm : 0 < d.m := by omega
      have hlt : j * d.m + i < d.m * d.n := by
        calc j * d.m + i < j * d.m + d.m := by omega
          _ = (j + 1) * d.m := by ring
          _ ≤ d.n * d.m := Nat.mul_le_mul_right d.m (by omega)
          _ = d.m * d.n := mul_comm _ _
      have hmod : (j * d.m + i) % d.m = i := by
        rw [Nat.add_comm, Nat.add_mul_mod_self_right]
        exact Nat.mod_eq_of_lt hi
      have hdiv : (j * d.m + i) / d.m = j := by
        rw [Nat.add_comm, Nat.add_mul_div_right _ _ hm,
          Nat.div_eq_of_lt hi]
        omega
      rw [show stackAb d.m d.n delA delb (j * d.m + i) = delA i j from by
        unfold stackAb
        rw [if_pos hlt, hmod, hdiv]]
      rw [show j * d.m + i = i + d.m * j from by ring, hA i j]
    · -- column n: the delb part
      apply Finset.sum_congr rfl
      intro i hi
      rw [Finset.mem_range] at hi
      have hge : ¬ d.n * d.m + i < d.m * d.n := by
        rw [mul_comm d.n d.m]
        omega
      rw [show stackAb d.m d.n delA delb (d.n * d.m + i) = delb i from by
        unfold stackAb
        rw [if_neg hge, mul_comm d.n d.m, Nat.add_sub_cancel_left]]
      rw [show d.n * d.m + i = i + d.m * d.n from by ring]
      rw [hA i d.n]

/-- A concrete ParamConeProg with one scalar parameter whose objective
row carries a nonzero constant-column coefficient (the offset d). -/
def constTermProg : PCPData :=
  { n := 0, m := 0, sizes := [1],
    C := fun r c => if r = 0 ∧ c = 1 then 1 else 0,
    A := fun _ _ => 0 }

/-- C3 counterexample: apply_parameters is not linear in the parameter
values — the constant column always contributes with weight 1, so scaling
the parameter values by 2 does not scale the output by 2.  At the
concrete program above with all-zero parameter values, a = 2, b = 0:
the claimed identity fails on the returned objective vector c. -/
theorem applyParams_not_linear :
    ¬ ((applyParams constTermProg
          (fun i k => 2 * (fun _ _ => (0 : ℚ)) i k
            + 0 * (fun _ _ => (0 : ℚ)) i k)).c 0
        = 2 * (applyParams constTermProg (fun _ _ => (0 : ℚ))).c 0
          + 0 * (applyParams constTermProg (fun _ _ => (0 : ℚ))).c 0) := by
  simp only [applyParams, mulVecR, constTermProg, paramVecF, flatVals,
    Finset.sum_range_succ, Finset.sum_range_zero]
  norm_num

/-- C3 amended: apply_parameters is affine, not linear, in the parameter
values: the claimed component-wise identity
apply_parameters(a*p1 + b*p2) = a*apply_parameters(p1) +
b*apply_parameters(p2) holds for both the returned c and A whenever
a + b = 1 (affine combinations), the constant column contributing weight
a + b on the right-hand side. -/
theorem applyParams_affine (d : PCPData) (p1 p2 : Nat → Nat → ℚ)
    (a b : ℚ) (r i j : Nat) (hab : a + b = 1) :
    ((applyParams d (fun x k => a * p1 x k + b * p2 x k)).c r
      = a * (applyParams d p1).c r + b * (applyParams d p2).c r) ∧
    ((applyParams d (fun x k => a * p1 x k + b * p2 x k)).A i j
      = a * (applyParams d p1).A i j + b * (applyParams d p2).A i j) := by
  have hpv : ∀ c, paramVecF d.sizes (fun x k => a * p1 x k + b * p2 x k) c
      = a * paramVecF d.sizes p1 c + b * paramVecF d.sizes p2 c := by
    intro c
    unfold paramVecF
    by_cases h : c = d.sizes.sum
    · rw [if_pos h, if_pos h, if_pos h]
      linarith
    · rw [if_neg h, if_neg h, if_neg h, flatVals_linear]
  constructor <;>
  · simp only [applyParams, mulVecR]
    simp_rw [hpv, mul_add]
    rw [Finset.sum_add_distrib]
    simp_rw [show ∀ (x y z : ℚ), x * (y * z) = y * (x * z) from
      fun x y z => by ring]
    rw [← Finset.mul_sum, ← Finset.mul_sum]

/-- Witness for the amended C3 at a concrete affine combination. -/
theorem applyParams_affine_witness :
    (applyParams constTermProg
        (fun x k => (1/2 : ℚ) * (fun _ _ => (4 : ℚ)) x k
          + (1/2 : ℚ) * (fun _ _ => (2 : ℚ)) x k)).c 0
      = (1/2 : ℚ) * (applyParams constTermProg (fun _ _ => (4 : ℚ))).c 0
        + (1/2 : ℚ)
          * (applyParams constTermProg (fun _ _ => (2 : ℚ))).c 0 := by
  exact (applyParams_affine constTermProg (fun _ _ => 4) (fun _ _ => 2)
    (1/2) (1/2) 0 0 0 (by norm_num)).1

/-- C6 counterexample: a parameter that has a stored value still fails
when an override mapping is supplied without an entry for it — when a
mapping is passed, values are taken from the mapping only; stored values
are not used as a fallback (`id_to_param_value[idx]` raises on a missing
key). -/
theorem applyParametersOpt_ignores_stored_when_mapping_given :
    applyParametersOpt constTermProg (fun _ => some (fun _ => 5))
        (some (fun _ => none)) = none ∧
    ((fun (_ : Nat) => some (fun (_ : Nat) => (5 : ℚ))) 0).isSome
      = true := by
  exact ⟨rfl, rfl⟩

lemma resolveAll_none_iff (k : Nat) (res : Nat → Option (Nat → ℚ)) :
    resolveAll k res = none ↔ ∃ i, i < k ∧ res i = none := by
  induction k with
  | zero =>
    simp [resolveAll]
  | succ k ih =>
    constructor
    · intro h
      by_cases h1 : (res k).isSome
      · rcases Option.isSome_iff_exists.mp h1 with ⟨v, hv⟩
        by_cases h2 : (resolveAll k res).isSome
        · rcases Option.isSome_iff_exists.mp h2 with ⟨acc, hacc⟩
          exfalso
          unfold resolveAll at h
          rw [hv, hacc] at h
          exact Option.noConfusion h
        · have h2' : resolveAll k res = none :=
            Option.not_isSome_iff_eq_none.mp h2
          rcases ih.mp h2' with ⟨i, hik, hni⟩
          exact ⟨i, by omega, hni⟩
      · exact ⟨k, Nat.lt_succ_self k,
          Option.not_isSome_iff_eq_none.mp h1⟩
    · rintro ⟨i, hik, hni⟩
      unfold resolveAll
      rcases Nat.lt_succ_iff_lt_or_eq.mp hik with h | rfl
      · have hr : resolveAll k res = none := ih.mpr ⟨i, h, hni⟩
        rw [hr]
        cases res k <;> rfl
      · rw [hni]

/-- C6 amended: apply_parameters fails with a missing-value error exactly
when some parameter resolves to no value under param_value's rule: with
no mapping supplied, each parameter uses its stored value (failing iff
some stored value is unset); with a mapping supplied, every parameter's
value is taken from the mapping alone (failing iff the mapping lacks an
entry for some parameter, its stored value notwithstanding). -/
theorem applyParametersOpt_none_iff (d : PCPData)
    (stored : Nat → Option (Nat → ℚ))
    (id_to_param_value : Option (Nat → Option (Nat → ℚ))) :
    applyParametersOpt d stored id_to_param_value = none ↔
      ∃ i, i < d.sizes.length ∧
        resolveValue stored id_to_param_value i = none := by
  unfold applyParametersOpt
  rw [Option.map_eq_none']
  exact resolveAll_none_iff d.sizes.length
    (resolveValue stored id_to_param_value)

end Cvxpy
